import Mathlib

/-!
# Verification of the co-evolving network simulation

Shallow embedding of `Network_Simulation.py`. Python floats are modelled as
rationals (`ℚ`); every constant in the script is rational. Quantity vectors
are `List ℚ` and weight matrices are `List (List ℚ)` in row-major order,
matching the numpy arrays in the source. Random draws (uniform samples and
the link-inclusion coin flips) are passed in as explicit arguments.
-/

open scoped BigOperators

/-! ## Constants from the source (module-level parameters) -/

def NODES : Nat := 19

def LINK_TH : ℚ := 25/100

def LINK_W_BASE : ℚ := 25/100

def LINK_W_DEV : ℚ := 5/100

def NODE_Q_INIT : ℚ := 2

def LINK_MOD_BASE : ℚ := 1

def LINK_MOD_DEV : ℚ := 15/100

def NODE_Q_MIN : ℚ := 1/100

def NODE_Q_MAX : ℚ := 3

def LINK_W_MIN : ℚ := 1/100

def LINK_W_MAX : ℚ := 1

/-! ## Matrix/vector arithmetic as used by the source (numpy operations) -/

/-- `np.dot(q, W)` for a vector `q` of length `m` and a matrix `W`:
entry `j` is `Σ_{k < m} q[k] * W[k][j]`, with one entry per column of `W`. -/
def vecMatMul (q : List ℚ) (W : List (List ℚ)) : List ℚ :=
  (List.range (W.getD 0 []).length).map (fun j =>
    ((List.range q.length).map (fun k => q.getD k 0 * (W.getD k []).getD j 0)).sum)

/-- `numpy.matlib.repmat(q, m, 1)`: the matrix with `m` rows, each equal to `q`. -/
def repmat (q : List ℚ) (m : Nat) : List (List ℚ) :=
  List.replicate m q

/-- `np.dot(A, B)` for matrices: row `i`, column `j` is `Σ_k A[i][k] * B[k][j]`. -/
def matMul (A B : List (List ℚ)) : List (List ℚ) :=
  A.map (fun row =>
    (List.range (B.getD 0 []).length).map (fun j =>
      ((List.range row.length).map (fun k => row.getD k 0 * (B.getD k []).getD j 0)).sum))

/-- `np.diagonal(M)`: the list of entries `M[i][i]`. -/
def diagonal (M : List (List ℚ)) : List ℚ :=
  (List.range M.length).map (fun i => (M.getD i []).getD i 0)

/-- `np.multiply(A, B)`: elementwise product of two same-shaped matrices. -/
def elemMul (A B : List (List ℚ)) : List (List ℚ) :=
  List.zipWith (fun r d => List.zipWith (fun a b => a * b) r d) A B

/-! ## The dynamics engine (`network_dynamics`) -/

/-- `transfers = np.dot(quantities, links)` from `network_dynamics`. -/
def transfersOf (quantities : List ℚ) (links : List (List ℚ)) : List ℚ :=
  vecMatMul quantities links

/-- `losses = np.diagonal(np.dot(links, ml.repmat(quantities, len(quantities), 1)))`
from `network_dynamics`. -/
def lossesOf (quantities : List ℚ) (links : List (List ℚ)) : List ℚ :=
  diagonal (matMul links (repmat quantities quantities.length))

/-- The quantity update of `network_dynamics`:
`[quantities[n] - losses[n] + transfers[n] for n in range(len(name_list))]`.
The comprehension iterates over the length of the module-level `name_list`,
passed here as `nameListLen`; out-of-range reads use the numpy default 0
(see `network_dynamics_q?` for the bounds-checked version). -/
def network_dynamics_q (nameListLen : Nat) (quantities : List ℚ)
    (links : List (List ℚ)) : List ℚ :=
  (List.range nameListLen).map (fun n =>
    quantities.getD n 0 - (lossesOf quantities links).getD n 0
      + (transfersOf quantities links).getD n 0)

/-- Bounds-checked version of the quantity update: each index access
`quantities[n]`, `losses[n]`, `transfers[n]` is modelled as a fallible read
(`none` = Python `IndexError`), so the whole comprehension succeeds exactly
when every access is in bounds. -/
def network_dynamics_q? (nameListLen : Nat) (quantities : List ℚ)
    (links : List (List ℚ)) : Option (List ℚ) :=
  (List.range nameListLen).mapM (fun n => do
    let q ← quantities[n]?
    let l ← (lossesOf quantities links)[n]?
    let t ← (transfersOf quantities links)[n]?
    pure (q - l + t))

/-- The link update of `network_dynamics`:
`links = np.multiply(links, np.random.uniform(..., size=links.shape))`,
with the random factor matrix `D` passed in explicitly. -/
def network_dynamics_links (links D : List (List ℚ)) : List (List ℚ) :=
  elemMul links D

/-- `network_dynamics(quantities, links)` returning the pair
`(quantities, links)`; the drift factor matrix `D` stands for the uniform
sample `np.random.uniform(LINK_MOD_BASE-LINK_MOD_DEV, LINK_MOD_BASE+LINK_MOD_DEV, size=links.shape)`. -/
def network_dynamics (nameListLen : Nat) (quantities : List ℚ)
    (links D : List (List ℚ)) : List ℚ × List (List ℚ) :=
  (network_dynamics_q nameListLen quantities links, network_dynamics_links links D)

/-! ## Flattening (`flatten`) -/

/-- `flatten(links)`: walk rows then columns (both indices up to `len(links)`)
and collect the nonzero entries. -/
def flatten (links : List (List ℚ)) : List ℚ :=
  ((List.range links.length).map (fun lin =>
    (List.range links.length).filterMap (fun col =>
      if (links.getD lin []).getD col 0 ≠ 0
      then some ((links.getD lin []).getD col 0) else none))).flatten

/-! ## Clamping (`limit_params`) -/

/-- The per-value body of the `limit_params` loop:
keep a value strictly inside the bounds, pin a value below `lo` to `lo`,
pin a value above `hi` to `hi`, and otherwise (value equal to a bound)
leave it unchanged. -/
def limitOne (lo hi v : ℚ) : ℚ :=
  if lo < v ∧ v < hi then v
  else if v < lo then lo
  else if hi < v then hi
  else v

/-- `limit_params(quantities, links_flat)`: quantities are constrained with
`[NODE_Q_MIN, NODE_Q_MAX]`, flattened link weights with `[LINK_W_MIN, LINK_W_MAX]`. -/
def limit_params (quantities links_flat : List ℚ) : List ℚ × List ℚ :=
  (quantities.map (limitOne NODE_Q_MIN NODE_Q_MAX),
   links_flat.map (limitOne LINK_W_MIN LINK_W_MAX))

/-! ## Initialization (`initialize_network`, adjacency part) -/

/-- The adjacency-matrix construction of `initialize_network`, with the random
draws passed in: `base i j` is the uniform sample in
`[LINK_W_BASE-LINK_W_DEV, LINK_W_BASE+LINK_W_DEV]` and `drop i j` is the coin
`np.random.uniform() > LINK_TH`. An entry is zeroed when `i = j` or the coin
drops it. The construction performs no validation of the node count `n`. -/
def initialize_links (n : Nat) (base : Nat → Nat → ℚ) (drop : Nat → Nat → Bool) :
    List (List ℚ) :=
  (List.range n).map (fun i =>
    (List.range n).map (fun j => if i = j ∨ drop i j then 0 else base i j))

/-! ## Specification-side definitions (from the spec's words) -/

/-- Formalised from the spec sentence: `transfer[j] = Σ_i q[i] * W[i][j]`. -/
def spec_transfer (q : List ℚ) (W : List (List ℚ)) (j : Nat) : ℚ :=
  ∑ i in Finset.range q.length, q.getD i 0 * (W.getD i []).getD j 0

/-- Formalised from the spec sentence: `loss[i] = q[i] * Σ_j W[i][j]`
(the direct row-sum form, to be compared with the replicate-and-diagonal
computation `lossesOf` of the source). -/
def loss_rowsum (q : List ℚ) (W : List (List ℚ)) : List ℚ :=
  (List.range W.length).map (fun i => q.getD i 0 * (W.getD i []).sum)

/-! ## Helper lemmas on list indexing and sums -/

/-- Reading index `j < n` out of `(List.range n).map f` gives `f j`. -/
theorem getD_map_range {β : Type} [Inhabited β] (f : Nat → β) (d : β) {n j : Nat}
    (h : j < n) : (((List.range n).map f).getD j d) = f j := by
  simp [List.getD_eq_getElem?_getD, List.getElem?_map, List.getElem?_range, h]

/-- The sum of `(List.range n).map f` is the finite sum `∑ i in range n, f i`. -/
theorem sum_map_range (f : Nat → ℚ) (n : Nat) :
    ((List.range n).map f).sum = ∑ i in Finset.range n, f i := by
  induction n with
  | zero => simp
  | succ m ih => simp [List.range_succ, Finset.sum_range_succ, ih]

/-- Reassembling a list from its `getD` reads, through any function. -/
theorem map_range_getD {β γ : Type} (l : List β) (d : β) (f : β → γ) :
    (List.range l.length).map (fun i => f (l.getD i d)) = l.map f := by
  induction l with
  | nil => simp
  | cons a t ih =>
    simp only [List.length_cons, List.range_succ_eq_map, List.map_cons, List.map_map]
    refine congrArg (fun s => f a :: s) ?_
    have h : ((fun i => f ((a :: t).getD i d)) ∘ Nat.succ) = fun i => f (t.getD i d) := by
      funext i
      simp
    rw [h, ih]

/-- Reassembling a list from its `getD` reads. -/
theorem map_range_getD_id (l : List ℚ) :
    (List.range l.length).map (fun i => l.getD i 0) = l := by
  simpa using map_range_getD l 0 id

/-- The sum of the in-range `getD` reads of a list is its sum. -/
theorem sum_getD_range (l : List ℚ) :
    ∑ i in Finset.range l.length, l.getD i 0 = l.sum := by
  rw [← sum_map_range, map_range_getD_id]

/-- Reading a mapped list at an in-bounds index. -/
theorem getD_map {β γ : Type} (l : List β) (f : β → γ) (d : β) (dg : γ) {i : Nat}
    (h : i < l.length) : (l.map f).getD i dg = f (l.getD i d) := by
  rw [List.getD_eq_getElem?_getD, List.getD_eq_getElem?_getD, List.getElem?_map,
    List.getElem?_eq_getElem h]
  simp

/-- Reading a replicated list at an in-bounds index. -/
theorem getD_replicate {β : Type} (a d : β) {m i : Nat} (h : i < m) :
    (List.replicate m a).getD i d = a := by
  rw [List.getD_eq_getElem?_getD, List.getElem?_replicate, if_pos h]
  rfl

/-- In a square matrix (all rows of length `n`, `n` rows), the first-row width
used by the numpy products is `n`. -/
theorem cols_eq {W : List (List ℚ)} {n : Nat} (hW : W.length = n)
    (hrows : ∀ row ∈ W, row.length = n) : (W.getD 0 []).length = n := by
  cases W with
  | nil => simpa using hW
  | cons r t => exact hrows r (List.mem_cons_self r t)

/-- `transfersOf` has one entry per column of the matrix. -/
theorem transfersOf_length (q : List ℚ) (W : List (List ℚ)) :
    (transfersOf q W).length = (W.getD 0 []).length := by
  simp [transfersOf, vecMatMul]

/-- Entry `i` of the numpy transfer vector is `Σ_k q[k] * W[k][i]`. -/
theorem transfersOf_getD {q : List ℚ} {W : List (List ℚ)} {n : Nat}
    (hq : q.length = n) (hcols : (W.getD 0 []).length = n) {i : Nat} (hi : i < n) :
    (transfersOf q W).getD i 0
      = ∑ k in Finset.range n, q.getD k 0 * (W.getD k []).getD i 0 := by
  unfold transfersOf vecMatMul
  rw [hcols, getD_map_range _ _ hi, sum_map_range, hq]

/-- `lossesOf` has one entry per row of the matrix. -/
theorem lossesOf_length (q : List ℚ) (W : List (List ℚ)) :
    (lossesOf q W).length = W.length := by
  simp [lossesOf, diagonal, matMul]

/-- Entry `i` of the numpy loss vector (diagonal of `W · repmat(q)`) is
`q[i]` times the sum of row `i` of `W`. -/
theorem lossesOf_getD {q : List ℚ} {W : List (List ℚ)} {n : Nat}
    (hq : q.length = n) (hW : W.length = n) (hrows : ∀ row ∈ W, row.length = n)
    {i : Nat} (hi : i < n) :
    (lossesOf q W).getD i 0 = q.getD i 0 * (W.getD i []).sum := by
  have hiW : i < W.length := by omega
  unfold lossesOf diagonal
  have hlen : (matMul W (repmat q q.length)).length = W.length := by
    simp [matMul]
  rw [hlen, hW, getD_map_range _ _ hi]
  unfold matMul repmat
  rw [getD_map W _ [] [] hiW]
  have hrowlen : (W.getD i []).length = n := by
    refine hrows _ ?_
    rw [List.getD_eq_getElem?_getD, List.getElem?_eq_getElem hiW]
    exact List.getElem_mem hiW
  have hreplen : ((List.replicate q.length q).getD 0 []).length = q.length := by
    cases Nat.eq_zero_or_pos q.length with
    | inl h0 => simp [h0]
    | inr hpos => rw [getD_replicate _ _ hpos]
  rw [hreplen, hq, getD_map_range _ _ hi, sum_map_range, hrowlen]
  have hterm : ∀ k ∈ Finset.range n,
      (W.getD i []).getD k 0 * ((List.replicate n q).getD k []).getD i 0
        = (W.getD i []).getD k 0 * q.getD i 0 := by
    intro k hk
    rw [Finset.mem_range] at hk
    rw [getD_replicate q [] hk]
  rw [Finset.sum_congr rfl hterm, ← Finset.sum_mul, mul_comm, ← hrowlen, sum_getD_range]

/-- An in-bounds `getD` read of a matrix is one of its rows. -/
theorem row_mem_getD {W : List (List ℚ)} {i : Nat} (h : i < W.length) :
    W.getD i [] ∈ W := by
  rw [List.getD_eq_getElem?_getD, List.getElem?_eq_getElem h]
  exact List.getElem_mem h

/-- The sum of a row of length `n` equals the finite sum of its reads. -/
theorem row_sum_eq {row : List ℚ} {n : Nat} (h : row.length = n) :
    ∑ j in Finset.range n, row.getD j 0 = row.sum := by
  rw [← h]
  exact sum_getD_range row

/-! ## Claim theorems -/

/-- C1: for every quantity vector `q` of length `n` and every `n × n`
weight matrix `W` with zero diagonal, the quantity update of
`network_dynamics` (before drift and clamping) returns, at every node `i`,
`q[i] - loss[i] + transfer[i]` with `transfer[j] = Σ_k q[k]·W[k][j]` and
`loss[i] = q[i] · Σ_j W[i][j]`. -/
theorem C1_network_dynamics_update_formula (n : Nat) (q : List ℚ) (W : List (List ℚ))
    (hq : q.length = n) (hW : W.length = n) (hrows : ∀ row ∈ W, row.length = n)
    (_hdiag : ∀ i, i < n → (W.getD i []).getD i 0 = 0)
    (i : Nat) (hi : i < n) :
    (network_dynamics_q n q W).getD i 0
      = q.getD i 0 - q.getD i 0 * (∑ j in Finset.range n, (W.getD i []).getD j 0)
        + ∑ k in Finset.range n, q.getD k 0 * (W.getD k []).getD i 0 := by
  have hcols := cols_eq hW hrows
  unfold network_dynamics_q
  rw [getD_map_range _ _ hi, lossesOf_getD hq hW hrows hi, transfersOf_getD hq hcols hi]
  have hrowlen : (W.getD i []).length = n := hrows _ (row_mem_getD (by omega))
  rw [row_sum_eq hrowlen]

/-- C4: the loss vector computed in the source as the diagonal of
`W · repmat(q, n, 1)` equals, entry for entry, the direct row-sum form
`q[i] · Σ_j W[i][j]` (`loss_rowsum`, the spec's formulation). -/
theorem C4_loss_replicate_diagonal_eq_rowsum (n : Nat) (q : List ℚ)
    (W : List (List ℚ)) (hq : q.length = n) (hW : W.length = n)
    (hrows : ∀ row ∈ W, row.length = n) :
    lossesOf q W = loss_rowsum q W := by
  unfold loss_rowsum
  conv_lhs => rw [← map_range_getD_id (lossesOf q W)]
  rw [lossesOf_length]
  refine List.map_congr_left (fun i hmem => ?_)
  rw [List.mem_range, hW] at hmem
  exact lossesOf_getD hq hW hrows hmem

/-- C2: transfers and losses have the same total, so the quantity update of
`network_dynamics` conserves the total quantity (before clamping). -/
theorem C2_total_quantity_conserved (n : Nat) (q : List ℚ) (W : List (List ℚ))
    (hq : q.length = n) (hW : W.length = n) (hrows : ∀ row ∈ W, row.length = n) :
    (transfersOf q W).sum = (lossesOf q W).sum
      ∧ (network_dynamics_q n q W).sum = q.sum := by
  have hcols := cols_eq hW hrows
  have htlen : (transfersOf q W).length = n := by rw [transfersOf_length, hcols]
  have hllen : (lossesOf q W).length = n := by rw [lossesOf_length, hW]
  have htsum : (transfersOf q W).sum
      = ∑ j in Finset.range n, ∑ k in Finset.range n,
          q.getD k 0 * (W.getD k []).getD j 0 := by
    rw [← sum_getD_range (transfersOf q W), htlen]
    exact Finset.sum_congr rfl
      (fun j hj => transfersOf_getD hq hcols (Finset.mem_range.mp hj))
  have hlsum : (lossesOf q W).sum
      = ∑ i in Finset.range n, q.getD i 0 * (W.getD i []).sum := by
    rw [← sum_getD_range (lossesOf q W), hllen]
    exact Finset.sum_congr rfl
      (fun i hi => lossesOf_getD hq hW hrows (Finset.mem_range.mp hi))
  have key : (transfersOf q W).sum = (lossesOf q W).sum := by
    rw [htsum, hlsum, Finset.sum_comm]
    refine Finset.sum_congr rfl (fun k hk => ?_)
    have hrowlen : (W.getD k []).length = n :=
      hrows _ (row_mem_getD (by rw [hW]; exact Finset.mem_range.mp hk))
    rw [← Finset.mul_sum, row_sum_eq hrowlen]
  refine ⟨key, ?_⟩
  have hsplit : (network_dynamics_q n q W).sum
      = (∑ i in Finset.range n, q.getD i 0)
        - (∑ i in Finset.range n, (lossesOf q W).getD i 0)
        + ∑ i in Finset.range n, (transfersOf q W).getD i 0 := by
    unfold network_dynamics_q
    rw [sum_map_range, Finset.sum_add_distrib, Finset.sum_sub_distrib]
  rw [hsplit, row_sum_eq hq, row_sum_eq hllen, row_sum_eq htlen, key]
  ring

/-- C6: on `q = [1, 0]` and `W = [[0, 1/2], [0, 0]]`, the dynamics step
computes `transfer = [0, 1/2]`, `loss = [1/2, 0]`, and the pre-drift,
pre-clamp update `q' = [1/2, 1/2]`. -/
theorem C6_concrete_example :
    transfersOf [1, 0] [[0, 1/2], [0, 0]] = [0, 1/2]
      ∧ lossesOf [1, 0] [[0, 1/2], [0, 0]] = [1/2, 0]
      ∧ network_dynamics_q 2 [1, 0] [[0, 1/2], [0, 0]] = [1/2, 1/2] := by
  refine ⟨?_, ?_, ?_⟩ <;>
    norm_num [transfersOf, lossesOf, network_dynamics_q, vecMatMul, matMul,
      diagonal, repmat, List.range_succ]

/-- For well-ordered bounds, the `limit_params` branch structure computes the
closed-interval clamp `min (max v lo) hi`. -/
theorem limitOne_eq_clamp {lo hi : ℚ} (h : lo ≤ hi) (v : ℚ) :
    limitOne lo hi v = min (max v lo) hi := by
  simp only [limitOne, min_def, max_def]
  split_ifs <;> push_neg at * <;> first | rfl | linarith

/-- For well-ordered bounds, the `limit_params` branch structure is
idempotent on a single value. -/
theorem limitOne_idem {lo hi : ℚ} (h : lo ≤ hi) (v : ℚ) :
    limitOne lo hi (limitOne lo hi v) = limitOne lo hi v := by
  simp only [limitOne]
  split_ifs <;> push_neg at * <;> first | rfl | linarith

/-- The two bound pairs used by `limit_params` are well ordered. -/
theorem bounds_ordered : NODE_Q_MIN ≤ NODE_Q_MAX ∧ LINK_W_MIN ≤ LINK_W_MAX := by
  norm_num [NODE_Q_MIN, NODE_Q_MAX, LINK_W_MIN, LINK_W_MAX]

/-- C3: `limit_params` is the elementwise closed-interval clamp: values
inside the closed interval are unchanged, values below `lo` become `lo`,
values above `hi` become `hi`, i.e. each value maps to `min (max v lo) hi`;
quantities use `[NODE_Q_MIN, NODE_Q_MAX]` and link weights use
`[LINK_W_MIN, LINK_W_MAX]`. -/
theorem C3_limit_params_is_clamp (lo hi : ℚ) (h : lo ≤ hi) (v : ℚ)
    (vs qs ls : List ℚ) :
    limitOne lo hi v = min (max v lo) hi
      ∧ (lo ≤ v → v ≤ hi → limitOne lo hi v = v)
      ∧ (v < lo → limitOne lo hi v = lo)
      ∧ (hi < v → limitOne lo hi v = hi)
      ∧ vs.map (limitOne lo hi) = vs.map (fun x => min (max x lo) hi)
      ∧ limit_params qs ls
          = (qs.map (fun x => min (max x NODE_Q_MIN) NODE_Q_MAX),
             ls.map (fun x => min (max x LINK_W_MIN) LINK_W_MAX)) := by
  refine ⟨limitOne_eq_clamp h v, ?_, ?_, ?_, ?_, ?_⟩
  · intro h1 h2
    rw [limitOne_eq_clamp h v, max_eq_left h1, min_eq_left h2]
  · intro h1
    rw [limitOne_eq_clamp h v, max_eq_right h1.le, min_eq_left h]
  · intro h1
    rw [limitOne_eq_clamp h v, max_eq_left (h.trans h1.le), min_eq_right h1.le]
  · exact List.map_congr_left (fun x _ => limitOne_eq_clamp h x)
  · simp only [limit_params, Prod.mk.injEq]
    exact ⟨List.map_congr_left (fun x _ => limitOne_eq_clamp bounds_ordered.1 x),
           List.map_congr_left (fun x _ => limitOne_eq_clamp bounds_ordered.2 x)⟩

/-- Witness for C3 at `lo = 0`, `hi = 1`, `v = 2`, `vs = [1/2]`,
`qs = [5]`, `ls = [-3]`. -/
theorem C3_witness :
    (0:ℚ) ≤ 1
      ∧ (limitOne 0 1 2 = min (max 2 0) 1
          ∧ ((0:ℚ) ≤ 2 → (2:ℚ) ≤ 1 → limitOne 0 1 2 = 2)
          ∧ ((2:ℚ) < 0 → limitOne 0 1 2 = 0)
          ∧ ((1:ℚ) < 2 → limitOne 0 1 2 = 1)
          ∧ ([(1/2 : ℚ)]).map (limitOne 0 1)
              = ([(1/2 : ℚ)]).map (fun x => min (max x 0) 1)
          ∧ limit_params [5] [-3]
              = (([(5:ℚ)]).map (fun x => min (max x NODE_Q_MIN) NODE_Q_MAX),
                 ([(-3:ℚ)]).map (fun x => min (max x LINK_W_MIN) LINK_W_MAX))) :=
  ⟨by norm_num, C3_limit_params_is_clamp 0 1 (by norm_num) 2 [1/2] [5] [-3]⟩

/-- C7: applying the clamp twice yields the same result as applying it once,
both for a generic well-ordered bound pair and for the full `limit_params`
step with its fixed bounds. -/
theorem C7_limit_params_idempotent (lo hi : ℚ) (h : lo ≤ hi) (vs qs ls : List ℚ) :
    (vs.map (limitOne lo hi)).map (limitOne lo hi) = vs.map (limitOne lo hi)
      ∧ limit_params (limit_params qs ls).1 (limit_params qs ls).2
          = limit_params qs ls := by
  constructor
  · rw [List.map_map]
    exact List.map_congr_left (fun v _ => limitOne_idem h v)
  · simp only [limit_params, List.map_map, Prod.mk.injEq]
    exact ⟨List.map_congr_left (fun v _ => limitOne_idem bounds_ordered.1 v),
           List.map_congr_left (fun v _ => limitOne_idem bounds_ordered.2 v)⟩

/-- Witness for C7 at `lo = 0`, `hi = 1`, `vs = [7]`, `qs = [5]`, `ls = [-3]`. -/
theorem C7_witness :
    (0:ℚ) ≤ 1
      ∧ ((([(7:ℚ)]).map (limitOne 0 1)).map (limitOne 0 1)
            = ([(7:ℚ)]).map (limitOne 0 1)
          ∧ limit_params (limit_params [5] [-3]).1 (limit_params [5] [-3]).2
              = limit_params [5] [-3]) :=
  ⟨by norm_num, C7_limit_params_idempotent 0 1 (by norm_num) [7] [5] [-3]⟩

/-- Reading an in-bounds index out of a `zipWith`. -/
theorem getD_zipWith {β : Type} (f : β → β → β) (a b : List β) (da db d : β)
    {i : Nat} (ha : i < a.length) (hb : i < b.length) :
    (List.zipWith f a b).getD i d = f (a.getD i da) (b.getD i db) := by
  induction a generalizing b i with
  | nil => simp at ha
  | cons x xs ih =>
    cases b with
    | nil => simp at hb
    | cons y ys =>
      cases i with
      | zero => rfl
      | succ k =>
        simp only [List.zipWith_cons_cons, List.getD_cons_succ]
        exact ih ys (by simpa using ha) (by simpa using hb)

/-- C5: the drift step multiplies each weight by a factor drawn from
`[LINK_MOD_BASE - LINK_MOD_DEV, LINK_MOD_BASE + LINK_MOD_DEV]`, a positive
interval, so an entry of the drifted matrix is zero exactly when the
corresponding weight was zero: no new edges appear and no existing edge
becomes exactly zero in the drift step. -/
theorem C5_drift_preserves_zero_pattern (links D : List (List ℚ))
    (hD : ∀ i j : Nat, i < D.length → j < (D.getD i []).length →
      LINK_MOD_BASE - LINK_MOD_DEV ≤ (D.getD i []).getD j 0
        ∧ (D.getD i []).getD j 0 ≤ LINK_MOD_BASE + LINK_MOD_DEV) :
    0 < LINK_MOD_BASE - LINK_MOD_DEV
      ∧ ∀ i j : Nat, i < links.length → i < D.length →
          j < (links.getD i []).length → j < (D.getD i []).length →
          (((network_dynamics_links links D).getD i []).getD j 0 = 0
            ↔ (links.getD i []).getD j 0 = 0) := by
  refine ⟨by norm_num [LINK_MOD_BASE, LINK_MOD_DEV], ?_⟩
  intro i j hiL hiD hjL hjD
  unfold network_dynamics_links elemMul
  rw [getD_zipWith _ links D [] [] [] hiL hiD,
    getD_zipWith _ _ _ 0 0 0 hjL hjD]
  have hpos : (0:ℚ) < (D.getD i []).getD j 0 := by
    have hlow := (hD i j hiD hjD).1
    have : (0:ℚ) < LINK_MOD_BASE - LINK_MOD_DEV := by
      norm_num [LINK_MOD_BASE, LINK_MOD_DEV]
    linarith
  constructor
  · intro h0
    rcases mul_eq_zero.mp h0 with h | h
    · exact h
    · exact absurd h (ne_of_gt hpos)
  · intro h0
    rw [h0, zero_mul]

/-- Witness for C5 at `links = [[2]]`, `D = [[1]]`. -/
theorem C5_witness :
    (∀ i j : Nat, i < ([[(1:ℚ)]]).length → j < (([[(1:ℚ)]]).getD i []).length →
      LINK_MOD_BASE - LINK_MOD_DEV ≤ (([[(1:ℚ)]]).getD i []).getD j 0
        ∧ (([[(1:ℚ)]]).getD i []).getD j 0 ≤ LINK_MOD_BASE + LINK_MOD_DEV)
      ∧ (0 < LINK_MOD_BASE - LINK_MOD_DEV
          ∧ ∀ i j : Nat, i < ([[(2:ℚ)]]).length → i < ([[(1:ℚ)]]).length →
              j < (([[(2:ℚ)]]).getD i []).length →
              j < (([[(1:ℚ)]]).getD i []).length →
              (((network_dynamics_links [[2]] [[1]]).getD i []).getD j 0 = 0
                ↔ (([[(2:ℚ)]]).getD i []).getD j 0 = 0)) := by
  have hD : ∀ i j : Nat, i < ([[(1:ℚ)]]).length →
      j < (([[(1:ℚ)]]).getD i []).length →
      LINK_MOD_BASE - LINK_MOD_DEV ≤ (([[(1:ℚ)]]).getD i []).getD j 0
        ∧ (([[(1:ℚ)]]).getD i []).getD j 0 ≤ LINK_MOD_BASE + LINK_MOD_DEV := by
    intro i j hi hj
    have hi' : i = 0 := Nat.lt_one_iff.mp (by simpa using hi)
    subst hi'
    have hj' : j = 0 := Nat.lt_one_iff.mp (by simpa using hj)
    subst hj'
    norm_num [LINK_MOD_BASE, LINK_MOD_DEV, List.getD]
  exact ⟨hD, C5_drift_preserves_zero_pattern [[2]] [[1]] hD⟩

/-- Witness for C1 at `n = 2`, `q = [1, 0]`, `W = [[0, 1/2], [0, 0]]`, `i = 1`. -/
theorem C1_witness :
    (∀ row ∈ ([[0, 1/2], [0, 0]] : List (List ℚ)), row.length = 2)
      ∧ (network_dynamics_q 2 [1, 0] [[0, 1/2], [0, 0]]).getD 1 0
          = ([1, 0] : List ℚ).getD 1 0
            - ([1, 0] : List ℚ).getD 1 0
              * (∑ j in Finset.range 2,
                  (([[0, 1/2], [0, 0]] : List (List ℚ)).getD 1 []).getD j 0)
            + ∑ k in Finset.range 2,
                ([1, 0] : List ℚ).getD k 0
                  * (([[0, 1/2], [0, 0]] : List (List ℚ)).getD k []).getD 1 0 := by
  refine ⟨by decide, ?_⟩
  exact C1_network_dynamics_update_formula 2 [1, 0] [[0, 1/2], [0, 0]] rfl rfl
    (by decide) (by intro i hi; interval_cases i <;> norm_num [List.getD]) 1
    (by norm_num)

/-- Witness for C2 at `n = 2`, `q = [1, 0]`, `W = [[0, 1/2], [0, 0]]`. -/
theorem C2_witness :
    ([1, 0] : List ℚ).length = 2
      ∧ ((transfersOf [1, 0] [[0, 1/2], [0, 0]]).sum
            = (lossesOf [1, 0] [[0, 1/2], [0, 0]]).sum
          ∧ (network_dynamics_q 2 [1, 0] [[0, 1/2], [0, 0]]).sum
              = ([1, 0] : List ℚ).sum) :=
  ⟨rfl, C2_total_quantity_conserved 2 [1, 0] [[0, 1/2], [0, 0]] rfl rfl (by decide)⟩

/-- Witness for C4 at `n = 2`, `q = [1, 0]`, `W = [[0, 1/2], [0, 0]]`. -/
theorem C4_witness :
    ([1, 0] : List ℚ).length = 2
      ∧ lossesOf [1, 0] [[0, 1/2], [0, 0]] = loss_rowsum [1, 0] [[0, 1/2], [0, 0]] :=
  ⟨rfl, C4_loss_replicate_diagonal_eq_rowsum 2 [1, 0] [[0, 1/2], [0, 0]] rfl rfl
    (by decide)⟩

/-- C8 counterexample: with node count 0 (a malformed configuration), the
adjacency construction of `initialize_network` returns normally with an
empty matrix instead of failing with a configuration error. -/
theorem C8_counterexample :
    initialize_links 0 (fun _ _ => 0) (fun _ _ => false) = [] := rfl

/-- C8 (amended): the startup code performs no configuration validation:
for every node count `n`, including the degenerate `n = 0`,
`initialize_links` returns normally and produces an `n × n` matrix
(empty when `n = 0`); no configuration error is ever raised. -/
theorem C8_no_startup_validation (n : Nat) (base : Nat → Nat → ℚ)
    (drop : Nat → Nat → Bool) :
    (initialize_links n base drop).length = n
      ∧ ∀ row ∈ initialize_links n base drop, row.length = n := by
  constructor
  · simp [initialize_links]
  · intro row hrow
    unfold initialize_links at hrow
    rcases List.mem_map.mp hrow with ⟨i, _, rfl⟩
    simp

/-- An Option-valued `mapM` succeeds exactly when every element read
succeeds. -/
theorem mapM_option_isSome {β γ : Type} (f : β → Option γ) (l : List β) :
    (l.mapM f).isSome = true ↔ ∀ a ∈ l, (f a).isSome = true := by
  rw [← List.mapM'_eq_mapM]
  induction l with
  | nil => simp [List.mapM']
  | cons x xs ih =>
    simp only [List.mapM']
    cases hf : f x with
    | none => simp [hf]
    | some y =>
      cases hm : List.mapM' f xs with
      | none =>
        rw [hm] at ih
        simp only [Option.isSome_none, Bool.false_eq_true, false_iff] at ih
        push_neg at ih
        rcases ih with ⟨a, ha, hna⟩
        simp [hf, hm]
        cases hfa : f a with
        | none => exact ⟨a, ha, hfa⟩
        | some b => simp [hfa] at hna
      | some ys =>
        rw [hm] at ih
        simp [hf, hm]
        exact ih.mp rfl

/-- C9 counterexample: with `name_list` of length 1 and a longer quantity
vector (with a matching 2 × 2 links matrix), every index access of the
update comprehension is still in bounds although the quantity vector's
length differs from the `name_list` length — so equality of the lengths is
not necessary for in-bounds access. -/
theorem C9_counterexample :
    (network_dynamics_q? 1 [1, 2] [[0, 0], [0, 0]]).isSome = true
      ∧ ([1, 2] : List ℚ).length ≠ 1 := by
  constructor
  · rfl
  · decide

/-- C9 (amended): the update comprehension of `network_dynamics` iterates
over the length of the module-level `name_list`; for a quantity vector with
a matching square links matrix, every index access is in bounds exactly when
the `name_list` length is at most the length of the quantities argument
(the main loop establishes the equality `len(quantities) = len(name_list) = NODES`,
which is the special case actually exercised). -/
theorem C9_index_accesses_in_bounds (nameListLen : Nat) (q : List ℚ)
    (W : List (List ℚ)) (hW : W.length = q.length)
    (hrows : ∀ row ∈ W, row.length = q.length) :
    (network_dynamics_q? nameListLen q W).isSome = true ↔ nameListLen ≤ q.length := by
  have hcols := cols_eq hW hrows
  have htlen : (transfersOf q W).length = q.length := by rw [transfersOf_length, hcols]
  have hllen : (lossesOf q W).length = q.length := by rw [lossesOf_length, hW]
  unfold network_dynamics_q?
  rw [mapM_option_isSome]
  have hiff : ∀ n : Nat, ((do
      let a ← q[n]?
      let b ← (lossesOf q W)[n]?
      let c ← (transfersOf q W)[n]?
      pure (a - b + c) : Option ℚ)).isSome = true ↔ n < q.length := by
    intro n
    rcases Nat.lt_or_ge n q.length with hn | hn
    · have h1 := List.getElem?_eq_getElem hn
      have h2 := List.getElem?_eq_getElem (show n < (lossesOf q W).length by omega)
      have h3 := List.getElem?_eq_getElem (show n < (transfersOf q W).length by omega)
      simp [h1, h2, h3, hn]
    · have h1 : q[n]? = none := List.getElem?_eq_none hn
      simp [h1]
      omega
  constructor
  · intro h
    rcases Nat.eq_zero_or_pos nameListLen with h0 | h0
    · omega
    · have hlast := (hiff (nameListLen - 1)).mp
        (h _ (List.mem_range.mpr (by omega)))
      omega
  · intro h n hn
    exact (hiff n).mpr (lt_of_lt_of_le (List.mem_range.mp hn) h)

/-- Witness for the amended C9 at `name_list` length 2,
`q = [1, 2]`, `W = [[0, 0], [0, 0]]`. -/
theorem C9_witness :
    ([[0, 0], [0, 0]] : List (List ℚ)).length = ([1, 2] : List ℚ).length
      ∧ ((network_dynamics_q? 2 [1, 2] [[0, 0], [0, 0]]).isSome = true
          ↔ 2 ≤ ([1, 2] : List ℚ).length) :=
  ⟨rfl, C9_index_accesses_in_bounds 2 [1, 2] [[0, 0], [0, 0]] rfl (by decide)⟩

/-- The inner loop of `flatten` over a row of known length collects exactly
the nonzero entries of the row, in order. -/
theorem filterMap_range_getD (l : List ℚ) :
    (List.range l.length).filterMap (fun col =>
      if l.getD col 0 ≠ 0 then some (l.getD col 0) else none)
      = l.filter (fun v => decide (v ≠ 0)) := by
  induction l with
  | nil => simp
  | cons a t ih =>
    rw [List.length_cons, List.range_succ_eq_map, List.filterMap_cons,
      List.filterMap_map]
    have hcomp : ((fun col => if (a :: t).getD col 0 ≠ 0
          then some ((a :: t).getD col 0) else none) ∘ Nat.succ)
        = fun col => if t.getD col 0 ≠ 0 then some (t.getD col 0) else none := by
      funext col
      simp
    rw [hcomp, ih]
    by_cases ha : a = 0 <;> simp [ha, List.filter_cons]

/-- Filtering distributes over flattening a list of rows. -/
theorem flatten_map_filter (P : ℚ → Bool) (L : List (List ℚ)) :
    (L.map (fun row => row.filter P)).flatten = L.flatten.filter P := by
  induction L with
  | nil => rfl
  | cons r t ih =>
    rw [List.map_cons, List.flatten_cons, List.flatten_cons, List.filter_append, ih]

/-- C10: for a square matrix, `flatten` returns exactly the nonzero entries
in row-major order (rows outer, columns inner), so its length is the number
of nonzero entries. -/
theorem C10_flatten_rowmajor_nonzeros (links : List (List ℚ))
    (hsq : ∀ row ∈ links, row.length = links.length) :
    flatten links = links.flatten.filter (fun v => decide (v ≠ 0))
      ∧ (flatten links).length = links.flatten.countP (fun v => decide (v ≠ 0)) := by
  have hmain : flatten links = links.flatten.filter (fun v => decide (v ≠ 0)) := by
    unfold flatten
    have houter : (List.range links.length).map (fun lin =>
        (List.range links.length).filterMap (fun col =>
          if (links.getD lin []).getD col 0 ≠ 0
          then some ((links.getD lin []).getD col 0) else none))
        = links.map (fun row => row.filter (fun v => decide (v ≠ 0))) := by
      rw [← map_range_getD links []
        (fun row => row.filter (fun v => decide (v ≠ 0)))]
      refine List.map_congr_left (fun i hi => ?_)
      have hi' : i < links.length := List.mem_range.mp hi
      have hrl : (links.getD i []).length = links.length :=
        hsq _ (row_mem_getD hi')
      rw [← hrl]
      exact filterMap_range_getD (links.getD i [])
    rw [houter, flatten_map_filter]
  refine ⟨hmain, ?_⟩
  rw [hmain, List.countP_eq_length_filter]

/-- Witness for C10 at `links = [[0, 1], [2, 0]]`. -/
theorem C10_witness :
    (∀ row ∈ ([[0, 1], [2, 0]] : List (List ℚ)),
        row.length = ([[0, 1], [2, 0]] : List (List ℚ)).length)
      ∧ (flatten [[0, 1], [2, 0]]
            = ([[0, 1], [2, 0]] : List (List ℚ)).flatten.filter
                (fun v => decide (v ≠ 0))
          ∧ (flatten [[0, 1], [2, 0]]).length
              = ([[0, 1], [2, 0]] : List (List ℚ)).flatten.countP
                  (fun v => decide (v ≠ 0))) :=
  ⟨by decide, C10_flatten_rowmajor_nonzeros [[0, 1], [2, 0]] (by decide)⟩
